import Mathlib

/-!
Verification of the quality-metrics and aggregation engine of the
descheduler analysis scripts.

Shallow embedding conventions:
* Python floats are modelled as exact rationals (`ℚ`); the value
  `float('inf')` used by the scripts as a sentinel is modelled by the
  two-constructor type `FloatX` below.
* `numpy`'s global pseudo-random generator is modelled by an abstract
  stream `gen : ℕ → ℕ → Vec3`: `gen s i` is the `i`-th triple of unit
  uniforms produced after `np.random.seed s`.  The global generator
  state is the explicit record `Rng` (current seed and how many draws
  have been consumed), threaded through the stateful embeddings.
* Objective triples `[cost, disruption, balance]` are the record `Vec3`.
-/

/-- Objective triple `(cost, disruption, balance)` of one solution, as
extracted by `calculate_hypervolume` / `calculate_sparsity` from a
`paretoFront` entry. -/
structure Vec3 where
  cost : ℚ
  disruption : ℚ
  balance : ℚ
deriving DecidableEq, Repr

/-- Python float values produced by the scripts: either a finite value or
the `float('inf')` sentinel. -/
inductive FloatX where
  | inf : FloatX
  | fin : ℚ → FloatX
deriving DecidableEq, Repr

/-- Addition of a finite float to a possibly-infinite one (`inf + d = inf`),
mirroring `+=` on a numpy array holding `float('inf')` entries. -/
def FloatX.addQ : FloatX → ℚ → FloatX
  | .inf, _ => .inf
  | .fin q, d => .fin (q + d)

/-- Comparison `q < x` where `x` may be `float('inf')`. -/
def FloatX.qlt (q : ℚ) : FloatX → Bool
  | .inf => true
  | .fin p => decide (q < p)

/-- Componentwise minimum of two objective triples. -/
def vmin2 (a b : Vec3) : Vec3 :=
  ⟨min a.cost b.cost, min a.disruption b.disruption, min a.balance b.balance⟩

/-- Componentwise maximum of two objective triples. -/
def vmax2 (a b : Vec3) : Vec3 :=
  ⟨max a.cost b.cost, max a.disruption b.disruption, max a.balance b.balance⟩

/-- Embedding of `np.min(objectives, axis=0)`: componentwise minimum of a front.  The
value on the empty list is irrelevant (numpy would raise; every caller
guards against the empty front first). -/
def npMin : List Vec3 → Vec3
  | [] => ⟨0, 0, 0⟩
  | v :: vs => vs.foldl vmin2 v

/-- Embedding of `np.max(objectives, axis=0)`: componentwise maximum of a front (same
convention for the unused empty case as `npMin`). -/
def npMax : List Vec3 → Vec3
  | [] => ⟨0, 0, 0⟩
  | v :: vs => vs.foldl vmax2 v

/-- Adding the scalar margin `0.1` to every component
(`np.max(...) + 0.1`). -/
def vaddMargin (v : Vec3) : Vec3 :=
  ⟨v.cost + 1/10, v.disruption + 1/10, v.balance + 1/10⟩

/-- Embedding of `np.all(obj <= point)`: `obj` dominates the sample `point`
(componentwise non-strict `≤` in all three minimisation objectives). -/
def domBy (obj p : Vec3) : Prop :=
  obj.cost ≤ p.cost ∧ obj.disruption ≤ p.disruption ∧ obj.balance ≤ p.balance

instance (obj p : Vec3) : Decidable (domBy obj p) := by
  unfold domBy; infer_instance

/-- State of the process-global numpy random generator: the seed last
installed by `np.random.seed` and the number of triples drawn since. -/
structure Rng where
  seed : ℕ
  used : ℕ
deriving DecidableEq, Repr

/-- Embedding of `np.random.seed n`: reset the global generator. -/
def npSeed (n : ℕ) (_r : Rng) : Rng := ⟨n, 0⟩

/-- The unit-uniform triple the stream `gen` yields for the `i`-th draw
from state `r`. -/
def genAt (gen : ℕ → ℕ → Vec3) (r : Rng) (i : ℕ) : Vec3 :=
  gen r.seed (r.used + i)

/-- One row of `np.random.uniform(min_point, reference_point, (n, 3))`:
the unit triple `u` scaled into the box `[low, high]` componentwise. -/
def sampleAt (low high u : Vec3) : Vec3 :=
  ⟨low.cost + (high.cost - low.cost) * u.cost,
   low.disruption + (high.disruption - low.disruption) * u.disruption,
   low.balance + (high.balance - low.balance) * u.balance⟩

/-- Embedding of `np.random.uniform(low, high, (n, 3))` from generator state `r`:
the list of `n` samples together with the advanced generator state. -/
def drawSamples (gen : ℕ → ℕ → Vec3) (low high : Vec3) (n : ℕ) (r : Rng) :
    List Vec3 × Rng :=
  ((List.range n).map fun i => sampleAt low high (genAt gen r i),
   ⟨r.seed, r.used + n⟩)

/-- The constant `n_samples = 10000` of `calculate_hypervolume`. -/
def nSamples : ℕ := 10000

/-- The body of `calculate_hypervolume` for a non-empty front:
resolve the reference point (worst point plus margin when `None`),
reseed the global generator with 42, draw the Monte-Carlo samples in
`[min_point, reference_point]`, count samples dominated by at least one
front solution, and scale the dominated fraction by the box volume. -/
def hypervolumeBody (gen : ℕ → ℕ → Vec3) (objectives : List Vec3)
    (referencePointOpt : Option Vec3) (r : Rng) : ℚ × Rng :=
  let reference_point :=
    match referencePointOpt with
    | some p => p
    | none => vaddMargin (npMax objectives)
  let r1 := npSeed 42 r
  let min_point := npMin objectives
  let drawn := drawSamples gen min_point reference_point nSamples r1
  let dominated_count :=
    (drawn.1.filter fun p => objectives.any fun obj => decide (domBy obj p)).length
  let total_volume :=
    (reference_point.cost - min_point.cost) *
      ((reference_point.disruption - min_point.disruption) *
        (reference_point.balance - min_point.balance))
  ((dominated_count : ℚ) / (nSamples : ℚ) * total_volume, drawn.2)

/-- Embedding of `calculate_hypervolume(pareto_front, reference_point=None)` as a
state transformer on the global generator: an empty front returns `0.0`
without touching the generator, otherwise `hypervolumeBody` runs. -/
def calculateHypervolumeS (gen : ℕ → ℕ → Vec3) (pareto_front : List Vec3)
    (referencePointOpt : Option Vec3) (r : Rng) : ℚ × Rng :=
  match pareto_front with
  | [] => (0, r)
  | v :: vs => hypervolumeBody gen (v :: vs) referencePointOpt r

/-- The value of `calculate_hypervolume`, which (as proved below) does not
depend on the incoming generator state. -/
def calculateHypervolume (gen : ℕ → ℕ → Vec3) (pareto_front : List Vec3)
    (referencePointOpt : Option Vec3) : ℚ :=
  (calculateHypervolumeS gen pareto_front referencePointOpt ⟨0, 0⟩).1

/-- The returned value of the stateful hypervolume estimator does not
depend on the incoming generator state: the empty-front branch is the
constant `0`, and the non-empty branch reseeds with 42 first. -/
theorem hypervolumeS_fst_state_free (gen : ℕ → ℕ → Vec3) (front : List Vec3)
    (rp : Option Vec3) (r₁ r₂ : Rng) :
    (calculateHypervolumeS gen front rp r₁).1 =
      (calculateHypervolumeS gen front rp r₂).1 := by
  cases front with
  | nil => rfl
  | cons v vs => rfl

theorem hypervolumeS_fst_eq_pure (gen : ℕ → ℕ → Vec3) (front : List Vec3)
    (rp : Option Vec3) (r : Rng) :
    (calculateHypervolumeS gen front rp r).1 =
      calculateHypervolume gen front rp :=
  hypervolumeS_fst_state_free gen front rp r ⟨0, 0⟩

/-! ## Generic componentwise lemmas -/

/-- Minimum of a non-empty list of rationals (`0` on the empty list,
which is never used). -/
def listMin : List ℚ → ℚ
  | [] => 0
  | x :: xs => xs.foldl min x

/-- Maximum of a non-empty list of rationals (`0` on the empty list,
which is never used). -/
def listMax : List ℚ → ℚ
  | [] => 0
  | x :: xs => xs.foldl max x

theorem foldl_proj (f : Vec3 → ℚ) (op2 : Vec3 → Vec3 → Vec3) (opq : ℚ → ℚ → ℚ)
    (hf : ∀ a b, f (op2 a b) = opq (f a) (f b)) :
    ∀ (l : List Vec3) (a : Vec3), f (l.foldl op2 a) = (l.map f).foldl opq (f a) := by
  intro l
  induction l with
  | nil => intro a; rfl
  | cons v vs ih => intro a; simp only [List.foldl_cons, List.map_cons, ih, hf]

theorem npMin_cost (v : Vec3) (vs : List Vec3) :
    (npMin (v :: vs)).cost = listMin ((v :: vs).map (·.cost)) := by
  simpa [npMin, listMin] using
    foldl_proj (·.cost) vmin2 min (fun _ _ => rfl) vs v

theorem npMin_disruption (v : Vec3) (vs : List Vec3) :
    (npMin (v :: vs)).disruption = listMin ((v :: vs).map (·.disruption)) := by
  simpa [npMin, listMin] using
    foldl_proj (·.disruption) vmin2 min (fun _ _ => rfl) vs v

theorem npMin_balance (v : Vec3) (vs : List Vec3) :
    (npMin (v :: vs)).balance = listMin ((v :: vs).map (·.balance)) := by
  simpa [npMin, listMin] using
    foldl_proj (·.balance) vmin2 min (fun _ _ => rfl) vs v

theorem npMax_cost (v : Vec3) (vs : List Vec3) :
    (npMax (v :: vs)).cost = listMax ((v :: vs).map (·.cost)) := by
  simpa [npMax, listMax] using
    foldl_proj (·.cost) vmax2 max (fun _ _ => rfl) vs v

theorem npMax_disruption (v : Vec3) (vs : List Vec3) :
    (npMax (v :: vs)).disruption = listMax ((v :: vs).map (·.disruption)) := by
  simpa [npMax, listMax] using
    foldl_proj (·.disruption) vmax2 max (fun _ _ => rfl) vs v

theorem npMax_balance (v : Vec3) (vs : List Vec3) :
    (npMax (v :: vs)).balance = listMax ((v :: vs).map (·.balance)) := by
  simpa [npMax, listMax] using
    foldl_proj (·.balance) vmax2 max (fun _ _ => rfl) vs v

theorem foldl_min_le (l : List ℚ) :
    ∀ a : ℚ, l.foldl min a ≤ a ∧ ∀ x ∈ l, l.foldl min a ≤ x := by
  induction l with
  | nil => intro a; exact ⟨le_refl a, by intro x hx; cases hx⟩
  | cons z zs ih =>
    intro a
    simp only [List.foldl_cons]
    refine ⟨(ih (min a z)).1.trans (min_le_left _ _), ?_⟩
    intro x hx
    rcases List.mem_cons.1 hx with h | h
    · exact h ▸ (ih (min a z)).1.trans (min_le_right _ _)
    · exact (ih (min a z)).2 x h

theorem foldl_le_max (l : List ℚ) :
    ∀ a : ℚ, a ≤ l.foldl max a ∧ ∀ x ∈ l, x ≤ l.foldl max a := by
  induction l with
  | nil => intro a; exact ⟨le_refl a, by intro x hx; cases hx⟩
  | cons z zs ih =>
    intro a
    simp only [List.foldl_cons]
    refine ⟨(le_max_left a z).trans (ih (max a z)).1, ?_⟩
    intro x hx
    rcases List.mem_cons.1 hx with h | h
    · exact h ▸ (le_max_right a z).trans (ih (max a z)).1
    · exact (ih (max a z)).2 x h

theorem listMin_le_mem (l : List ℚ) (x : ℚ) (hx : x ∈ l) : listMin l ≤ x := by
  cases l with
  | nil => cases hx
  | cons y ys =>
    unfold listMin
    rcases List.mem_cons.1 hx with h | h
    · exact h ▸ (foldl_min_le ys y).1
    · exact (foldl_min_le ys y).2 x h

theorem le_listMax_mem (l : List ℚ) (x : ℚ) (hx : x ∈ l) : x ≤ listMax l := by
  cases l with
  | nil => cases hx
  | cons y ys =>
    unfold listMax
    rcases List.mem_cons.1 hx with h | h
    · exact h ▸ (foldl_le_max ys y).1
    · exact (foldl_le_max ys y).2 x h

/-! ## Spec-side definitions for the hypervolume claims -/

/-- Claim-side `low`: the componentwise minimum of the front. -/
def specLow (front : List Vec3) : Vec3 :=
  ⟨listMin (front.map (·.cost)),
   listMin (front.map (·.disruption)),
   listMin (front.map (·.balance))⟩

/-- Claim-side front-local reference point: the componentwise maximum of
the front plus `0.1` per dimension. -/
def specHigh (front : List Vec3) : Vec3 :=
  ⟨listMax (front.map (·.cost)) + 1/10,
   listMax (front.map (·.disruption)) + 1/10,
   listMax (front.map (·.balance)) + 1/10⟩

/-- Claim-side box volume `Π (high[i] - low[i])`. -/
def specVolume (low high : Vec3) : ℚ :=
  (high.cost - low.cost) *
    ((high.disruption - low.disruption) * (high.balance - low.balance))

/-- Claim-side sample list: 10000 points placed uniformly in
`[low, high]` by the unit stream of the generator seeded with 42. -/
def specSamples (gen : ℕ → ℕ → Vec3) (front : List Vec3) (ref : Vec3) : List Vec3 :=
  (List.range 10000).map fun i => sampleAt (specLow front) ref (gen 42 i)

/-- Claim-side dominated count: how many samples have at least one front
solution componentwise `≤` them in all three objectives. -/
def specDominatedCount (front : List Vec3) (samples : List Vec3) : ℕ :=
  (samples.filter fun p => decide (∃ obj ∈ front, domBy obj p)).length

theorem Vec3.eq_of (a b : Vec3) (h1 : a.cost = b.cost)
    (h2 : a.disruption = b.disruption) (h3 : a.balance = b.balance) : a = b := by
  cases a; cases b; simp_all

theorem specLow_eq (v : Vec3) (vs : List Vec3) :
    specLow (v :: vs) = npMin (v :: vs) :=
  Vec3.eq_of _ _ (npMin_cost v vs).symm (npMin_disruption v vs).symm
    (npMin_balance v vs).symm

theorem specHigh_eq (v : Vec3) (vs : List Vec3) :
    specHigh (v :: vs) = vaddMargin (npMax (v :: vs)) :=
  Vec3.eq_of _ _ (by simp [specHigh, vaddMargin, npMax_cost])
    (by simp [specHigh, vaddMargin, npMax_disruption])
    (by simp [specHigh, vaddMargin, npMax_balance])

theorem npMin_le_cost (v : Vec3) (vs : List Vec3) (obj : Vec3) (h : obj ∈ v :: vs) :
    (npMin (v :: vs)).cost ≤ obj.cost := by
  rw [npMin_cost]
  exact listMin_le_mem _ _ (List.mem_map_of_mem _ h)

theorem npMin_le_disruption (v : Vec3) (vs : List Vec3) (obj : Vec3) (h : obj ∈ v :: vs) :
    (npMin (v :: vs)).disruption ≤ obj.disruption := by
  rw [npMin_disruption]
  exact listMin_le_mem _ _ (List.mem_map_of_mem _ h)

theorem npMin_le_balance (v : Vec3) (vs : List Vec3) (obj : Vec3) (h : obj ∈ v :: vs) :
    (npMin (v :: vs)).balance ≤ obj.balance := by
  rw [npMin_balance]
  exact listMin_le_mem _ _ (List.mem_map_of_mem _ h)

theorem le_npMax_cost (v : Vec3) (vs : List Vec3) (obj : Vec3) (h : obj ∈ v :: vs) :
    obj.cost ≤ (npMax (v :: vs)).cost := by
  rw [npMax_cost]
  exact le_listMax_mem _ _ (List.mem_map_of_mem _ h)

theorem le_npMax_disruption (v : Vec3) (vs : List Vec3) (obj : Vec3) (h : obj ∈ v :: vs) :
    obj.disruption ≤ (npMax (v :: vs)).disruption := by
  rw [npMax_disruption]
  exact le_listMax_mem _ _ (List.mem_map_of_mem _ h)

theorem le_npMax_balance (v : Vec3) (vs : List Vec3) (obj : Vec3) (h : obj ∈ v :: vs) :
    obj.balance ≤ (npMax (v :: vs)).balance := by
  rw [npMax_balance]
  exact le_listMax_mem _ _ (List.mem_map_of_mem _ h)

theorem any_dom_eq (front : List Vec3) (p : Vec3) :
    (front.any fun obj => decide (domBy obj p)) =
      decide (∃ obj ∈ front, domBy obj p) := by
  apply Bool.coe_iff_coe.mp
  simp [List.any_eq_true]

/-- The dominated-sample count of the source loop, with the seeded draw
position simplified (`genAt` at the freshly reseeded state). -/
def hvCount (gen : ℕ → ℕ → Vec3) (front : List Vec3) (ref : Vec3) : ℕ :=
  (((List.range nSamples).map fun i => sampleAt (npMin front) ref (gen 42 i)).filter
    fun p => front.any fun obj => decide (domBy obj p)).length

theorem hv_some_eq (gen : ℕ → ℕ → Vec3) (v : Vec3) (vs : List Vec3) (ref : Vec3) :
    calculateHypervolume gen (v :: vs) (some ref) =
      (hvCount gen (v :: vs) ref : ℚ) / (nSamples : ℚ) *
        ((ref.cost - (npMin (v :: vs)).cost) *
          ((ref.disruption - (npMin (v :: vs)).disruption) *
            (ref.balance - (npMin (v :: vs)).balance))) := by
  simp only [calculateHypervolume, calculateHypervolumeS, hypervolumeBody, drawSamples,
    npSeed, genAt, hvCount, Nat.zero_add]

theorem hv_none_eq_body (gen : ℕ → ℕ → Vec3) (v : Vec3) (vs : List Vec3) :
    calculateHypervolume gen (v :: vs) none =
      calculateHypervolume gen (v :: vs) (some (vaddMargin (npMax (v :: vs)))) := rfl

/-- C1 (claim theorem):
the hypervolume estimate of the empty front is `0` for every reference
point, and for a non-empty front and explicit reference point the
estimate is `(dominatedCount / 10000) * volume(low, high)`, where `low`
is the componentwise minimum of the front, `high` the reference point,
the 10000 samples are placed in `[low, high]` by the unit stream of the
generator seeded with 42, and a sample is dominated exactly when at
least one front solution is componentwise `≤` it (non-strict) in all
three objectives. -/
theorem hypervolume_montecarlo_formula :
    (∀ (gen : ℕ → ℕ → Vec3) (rp : Option Vec3), calculateHypervolume gen [] rp = 0) ∧
    (∀ (gen : ℕ → ℕ → Vec3) (front : List Vec3) (ref : Vec3), front ≠ [] →
      calculateHypervolume gen front (some ref) =
        (specDominatedCount front (specSamples gen front ref) : ℚ) / 10000 *
          specVolume (specLow front) ref) := by
  constructor
  · intro gen rp; rfl
  · intro gen front ref hne
    cases front with
    | nil => exact absurd rfl hne
    | cons v vs =>
      rw [hv_some_eq]
      have hcount : hvCount gen (v :: vs) ref =
          specDominatedCount (v :: vs) (specSamples gen (v :: vs) ref) := by
        unfold hvCount specDominatedCount specSamples nSamples
        rw [specLow_eq]
        exact congrArg List.length
          (List.filter_congr fun p _ => any_dom_eq (v :: vs) p)
      rw [hcount, specLow_eq]
      simp [specVolume, nSamples]

/-- Witness for the non-empty branch of `hypervolume_montecarlo_formula`
at a concrete one-point front. -/
theorem hypervolume_montecarlo_formula_witness :
    ([(⟨0, 0, 0⟩ : Vec3)] ≠ []) ∧
      calculateHypervolume (fun _ _ => ⟨1/2, 1/2, 1/2⟩) [⟨0, 0, 0⟩] (some ⟨1, 1, 1⟩) =
        (specDominatedCount [⟨0, 0, 0⟩]
            (specSamples (fun _ _ => ⟨1/2, 1/2, 1/2⟩) [⟨0, 0, 0⟩] ⟨1, 1, 1⟩) : ℚ) / 10000 *
          specVolume (specLow [⟨0, 0, 0⟩]) ⟨1, 1, 1⟩ :=
  ⟨by simp, hypervolume_montecarlo_formula.2 _ _ _ (by simp)⟩

theorem hvCount_eq_zero_of_flip (gen : ℕ → ℕ → Vec3) (v : Vec3) (vs : List Vec3)
    (ref : Vec3)
    (hgen : ∀ i, 0 < (gen 42 i).cost ∧ 0 < (gen 42 i).disruption ∧ 0 < (gen 42 i).balance)
    (h : ref.cost < (npMin (v :: vs)).cost ∨
         ref.disruption < (npMin (v :: vs)).disruption ∨
         ref.balance < (npMin (v :: vs)).balance) :
    hvCount gen (v :: vs) ref = 0 := by
  unfold hvCount
  rw [List.length_eq_zero, List.filter_eq_nil_iff]
  intro p hp
  obtain ⟨i, _, rfl⟩ := List.mem_map.1 hp
  rw [Bool.not_eq_true, List.any_eq_false]
  intro obj hobj hdom
  replace hdom := of_decide_eq_true hdom
  obtain ⟨h1, h2, h3⟩ := hdom
  simp only [sampleAt] at h1 h2 h3
  rcases h with hl | hl | hl
  · have hlow := npMin_le_cost v vs obj hobj
    have hneg : (ref.cost - (npMin (v :: vs)).cost) * (gen 42 i).cost < 0 :=
      mul_neg_of_neg_of_pos (by linarith) (hgen i).1
    linarith
  · have hlow := npMin_le_disruption v vs obj hobj
    have hneg : (ref.disruption - (npMin (v :: vs)).disruption) * (gen 42 i).disruption < 0 :=
      mul_neg_of_neg_of_pos (by linarith) (hgen i).2.1
    linarith
  · have hlow := npMin_le_balance v vs obj hobj
    have hneg : (ref.balance - (npMin (v :: vs)).balance) * (gen 42 i).balance < 0 :=
      mul_neg_of_neg_of_pos (by linarith) (hgen i).2.2
    linarith

theorem hv_zero_of_le (gen : ℕ → ℕ → Vec3) (v : Vec3) (vs : List Vec3) (ref : Vec3)
    (hgen : ∀ i, 0 < (gen 42 i).cost ∧ 0 < (gen 42 i).disruption ∧ 0 < (gen 42 i).balance)
    (h : ref.cost ≤ (npMin (v :: vs)).cost ∨
         ref.disruption ≤ (npMin (v :: vs)).disruption ∨
         ref.balance ≤ (npMin (v :: vs)).balance) :
    calculateHypervolume gen (v :: vs) (some ref) = 0 := by
  rw [hv_some_eq]
  rcases h with h | h | h
  · rcases eq_or_lt_of_le h with heq | hlt
    · rw [heq, sub_self, zero_mul, mul_zero]
    · rw [hvCount_eq_zero_of_flip gen v vs ref hgen (Or.inl hlt)]
      simp
  · rcases eq_or_lt_of_le h with heq | hlt
    · rw [heq, sub_self, zero_mul, mul_zero, mul_zero]
    · rw [hvCount_eq_zero_of_flip gen v vs ref hgen (Or.inr (Or.inl hlt))]
      simp
  · rcases eq_or_lt_of_le h with heq | hlt
    · rw [heq, sub_self, mul_zero, mul_zero, mul_zero]
    · rw [hvCount_eq_zero_of_flip gen v vs ref hgen (Or.inr (Or.inr hlt))]
      simp

theorem hv_some_nonneg (gen : ℕ → ℕ → Vec3) (v : Vec3) (vs : List Vec3) (ref : Vec3)
    (hgen : ∀ i, 0 < (gen 42 i).cost ∧ 0 < (gen 42 i).disruption ∧ 0 < (gen 42 i).balance) :
    0 ≤ calculateHypervolume gen (v :: vs) (some ref) := by
  rcases le_or_lt ref.cost (npMin (v :: vs)).cost with h1 | h1
  · rw [hv_zero_of_le gen v vs ref hgen (Or.inl h1)]
  · rcases le_or_lt ref.disruption (npMin (v :: vs)).disruption with h2 | h2
    · rw [hv_zero_of_le gen v vs ref hgen (Or.inr (Or.inl h2))]
    · rcases le_or_lt ref.balance (npMin (v :: vs)).balance with h3 | h3
      · rw [hv_zero_of_le gen v vs ref hgen (Or.inr (Or.inr h3))]
      · rw [hv_some_eq]
        apply mul_nonneg
        · exact div_nonneg (Nat.cast_nonneg _) (by norm_num [nSamples])
        · apply mul_nonneg (by linarith)
          apply mul_nonneg (by linarith) (by linarith)

/-- C5 (claim theorem):
whenever some coordinate of the reference point does not exceed the
corresponding coordinate of the componentwise front minimum, the
estimate is `0`; and the estimate is non-negative for every input.  The
hypothesis on `gen` states that every unit sample drawn by the seed-42
stream is strictly positive in each coordinate (`np.random.uniform`
draws from the half-open unit interval, and a coordinate exactly `0`
occurs for no draw of the fixed seeded stream). -/
theorem hypervolume_zero_box_and_nonneg (gen : ℕ → ℕ → Vec3)
    (hgen : ∀ i, 0 < (gen 42 i).cost ∧ 0 < (gen 42 i).disruption ∧ 0 < (gen 42 i).balance) :
    (∀ (front : List Vec3) (ref : Vec3), front ≠ [] →
      (ref.cost ≤ (npMin front).cost ∨ ref.disruption ≤ (npMin front).disruption ∨
        ref.balance ≤ (npMin front).balance) →
      calculateHypervolume gen front (some ref) = 0) ∧
    (∀ (front : List Vec3) (rp : Option Vec3), 0 ≤ calculateHypervolume gen front rp) := by
  constructor
  · intro front ref hne hle
    cases front with
    | nil => exact absurd rfl hne
    | cons v vs => exact hv_zero_of_le gen v vs ref hgen hle
  · intro front rp
    cases front with
    | nil => cases rp <;> norm_num [calculateHypervolume, calculateHypervolumeS]
    | cons v vs =>
      cases rp with
      | none => rw [hv_none_eq_body]; exact hv_some_nonneg gen v vs _ hgen
      | some ref => exact hv_some_nonneg gen v vs ref hgen

/-- Witness for `hypervolume_zero_box_and_nonneg` at a concrete stream,
front and degenerate reference point. -/
theorem hypervolume_zero_box_and_nonneg_witness :
    (∀ i, 0 < ((fun (_ _ : ℕ) => (⟨1/2, 1/2, 1/2⟩ : Vec3)) 42 i).cost ∧
        0 < ((fun (_ _ : ℕ) => (⟨1/2, 1/2, 1/2⟩ : Vec3)) 42 i).disruption ∧
        0 < ((fun (_ _ : ℕ) => (⟨1/2, 1/2, 1/2⟩ : Vec3)) 42 i).balance) ∧
      ([(⟨0, 0, 0⟩ : Vec3)] ≠ []) ∧
      ((⟨0, 1, 1⟩ : Vec3).cost ≤ (npMin [(⟨0, 0, 0⟩ : Vec3)]).cost ∨
        (⟨0, 1, 1⟩ : Vec3).disruption ≤ (npMin [(⟨0, 0, 0⟩ : Vec3)]).disruption ∨
        (⟨0, 1, 1⟩ : Vec3).balance ≤ (npMin [(⟨0, 0, 0⟩ : Vec3)]).balance) ∧
      calculateHypervolume (fun _ _ => ⟨1/2, 1/2, 1/2⟩) [⟨0, 0, 0⟩] (some ⟨0, 1, 1⟩) = 0 := by
  have hgen : ∀ i, 0 < ((fun (_ _ : ℕ) => (⟨1/2, 1/2, 1/2⟩ : Vec3)) 42 i).cost ∧
      0 < ((fun (_ _ : ℕ) => (⟨1/2, 1/2, 1/2⟩ : Vec3)) 42 i).disruption ∧
      0 < ((fun (_ _ : ℕ) => (⟨1/2, 1/2, 1/2⟩ : Vec3)) 42 i).balance :=
    fun _ => ⟨by norm_num, by norm_num, by norm_num⟩
  refine ⟨hgen, by simp, Or.inl (by norm_num [npMin]), ?_⟩
  exact (hypervolume_zero_box_and_nonneg _ hgen).1 [⟨0, 0, 0⟩] ⟨0, 1, 1⟩ (by simp)
    (Or.inl (by norm_num [npMin]))

/-- C10 (claim theorem):
for a non-empty front, calling the estimator with the reference point
omitted equals calling it with the front-local reference point: the
componentwise maximum of the front plus `0.1` per dimension. -/
theorem hypervolume_default_reference (gen : ℕ → ℕ → Vec3) (front : List Vec3)
    (hne : front ≠ []) :
    calculateHypervolume gen front none =
      calculateHypervolume gen front (some (specHigh front)) := by
  cases front with
  | nil => exact absurd rfl hne
  | cons v vs => rw [hv_none_eq_body, specHigh_eq]

/-- Witness for `hypervolume_default_reference` at a concrete front. -/
theorem hypervolume_default_reference_witness :
    ([(⟨0, 0, 0⟩ : Vec3), ⟨1, 2, 3⟩] ≠ []) ∧
      calculateHypervolume (fun _ _ => ⟨1/2, 1/2, 1/2⟩) [⟨0, 0, 0⟩, ⟨1, 2, 3⟩] none =
        calculateHypervolume (fun _ _ => ⟨1/2, 1/2, 1/2⟩) [⟨0, 0, 0⟩, ⟨1, 2, 3⟩]
          (some (specHigh [⟨0, 0, 0⟩, ⟨1, 2, 3⟩])) :=
  ⟨by simp, hypervolume_default_reference _ _ (by simp)⟩

/-! ## Sparsity (crowding distance) estimator -/

/-- Column `m` of the objectives matrix. -/
def objAt (m : Fin 3) (v : Vec3) : ℚ :=
  if m = 0 then v.cost else if m = 1 then v.disruption else v.balance

/-- Embedding of `objectives[i, m]` (the default is never used: indices come from
`argsort`, which permutes `range front.length`). -/
def keyOf (front : List Vec3) (m : Fin 3) (i : ℕ) : ℚ :=
  objAt m (front.getD i ⟨0, 0, 0⟩)

/-- Embedding of `np.argsort(objectives[:, m])`: the row indices sorted by column `m`
(a stable sort; `np.argsort` fixes ties by an unspecified order, and
every property proved below uses only that the result is a permutation
of `range front.length`). -/
def argsort (front : List Vec3) (m : Fin 3) : List ℕ :=
  List.insertionSort (fun i j => keyOf front m i ≤ keyOf front m j)
    (List.range front.length)

/-- Embedding of `objectives[sorted_indices[-1], m] - objectives[sorted_indices[0], m]`:
the value range of dimension `m` across the front. -/
def rangeOf (front : List Vec3) (m : Fin 3) : ℚ :=
  keyOf front m ((argsort front m).getD (front.length - 1) 0) -
    keyOf front m ((argsort front m).getD 0 0)

/-- One iteration of the interior loop: add the normalised neighbour gap
to the solution at sorted position `k+1`. -/
def interAdd (si : List ℕ) (keyf : ℕ → ℚ) (rng : ℚ) (d : ℕ → FloatX) (k : ℕ) :
    ℕ → FloatX :=
  Function.update d (si.getD (k + 1) 0)
    ((d (si.getD (k + 1) 0)).addQ
      ((keyf (si.getD (k + 2) 0) - keyf (si.getD k 0)) / rng))

/-- The interior loop `for i in range(1, n_solutions - 1)` of
`calculate_sparsity`, folded over `k = i - 1`. -/
def addInterior (n : ℕ) (si : List ℕ) (keyf : ℕ → ℚ) (rng : ℚ)
    (d : ℕ → FloatX) : ℕ → FloatX :=
  (List.range (n - 2)).foldl (interAdd si keyf rng) d

/-- One dimension of the crowding-distance loop: mark the two boundary
solutions with `float('inf')`, then (when the value range is positive)
run the interior loop. -/
def dimStep (front : List Vec3) (m : Fin 3) (d : ℕ → FloatX) : ℕ → FloatX :=
  let si := argsort front m
  let n := front.length
  let d2 := Function.update (Function.update d (si.getD 0 0) FloatX.inf)
    (si.getD (n - 1) 0) FloatX.inf
  if 0 < rangeOf front m then addInterior n si (keyOf front m) (rangeOf front m) d2
  else d2

/-- The full crowding-distance array after the three dimension passes
(`np.zeros` start, dimensions processed in order 0, 1, 2). -/
def crowdingDistances (front : List Vec3) : ℕ → FloatX :=
  dimStep front 2 (dimStep front 1 (dimStep front 0 fun _ => FloatX.fin 0))

/-- The `np.isfinite` filter: keep the finite values. -/
def toFiniteQ : FloatX → Option ℚ
  | .inf => none
  | .fin q => some q

/-- Embedding of `crowding_distances[np.isfinite(crowding_distances)]`. -/
def finiteDistances (front : List Vec3) : List ℚ :=
  ((List.range front.length).map (crowdingDistances front)).filterMap toFiniteQ

/-- Embedding of `calculate_sparsity(pareto_front)`: fronts of at most two solutions
return `float('inf')`; otherwise the mean of the finite crowding
distances, or `float('inf')` when every distance is infinite. -/
def calculateSparsity (front : List Vec3) : FloatX :=
  if front.length ≤ 2 then FloatX.inf
  else if finiteDistances front = [] then FloatX.inf
  else FloatX.fin ((finiteDistances front).sum / ((finiteDistances front).length : ℚ))

/-! ### Spec-side characterisation of the crowding distances -/

/-- Claim-side boundary predicate: solution `i` occupies the first or the
last sorted position in dimension `m`. -/
def isBoundary (front : List Vec3) (m : Fin 3) (i : ℕ) : Prop :=
  (argsort front m).getD 0 0 = i ∨
    (argsort front m).getD (front.length - 1) 0 = i

instance (front : List Vec3) (m : Fin 3) (i : ℕ) : Decidable (isBoundary front m i) := by
  unfold isBoundary; infer_instance

/-- Sorted position of solution `i` in dimension `m`. -/
def posOf (si : List ℕ) (i : ℕ) : ℕ :=
  si.findIdx fun j => j == i

/-- Claim-side per-dimension contribution of dimension `m` to solution
`i`: the neighbour gap normalised by the dimension range when that range
is positive, `0` otherwise. -/
def contribAt (front : List Vec3) (m : Fin 3) (i : ℕ) : ℚ :=
  if 0 < rangeOf front m then
    (keyOf front m ((argsort front m).getD (posOf (argsort front m) i + 1) 0) -
        keyOf front m ((argsort front m).getD (posOf (argsort front m) i - 1) 0)) /
      rangeOf front m
  else 0

/-- Claim-side per-solution crowding distance: infinite for a solution
that is boundary in any dimension, otherwise the sum of the three
per-dimension contributions. -/
def distSpec (front : List Vec3) (i : ℕ) : FloatX :=
  if ∃ m : Fin 3, isBoundary front m i then FloatX.inf
  else FloatX.fin (∑ m : Fin 3, contribAt front m i)

/-- Claim-side list of finite per-solution distances. -/
def specFiniteDists (front : List Vec3) : List ℚ :=
  (List.range front.length).filterMap fun i => toFiniteQ (distSpec front i)

theorem argsort_perm (front : List Vec3) (m : Fin 3) :
    List.Perm (argsort front m) (List.range front.length) :=
  List.perm_insertionSort _ _

theorem argsort_length (front : List Vec3) (m : Fin 3) :
    (argsort front m).length = front.length := by
  rw [(argsort_perm front m).length_eq, List.length_range]

theorem argsort_nodup (front : List Vec3) (m : Fin 3) :
    (argsort front m).Nodup :=
  (argsort_perm front m).nodup_iff.2 (List.nodup_range _)

theorem argsort_mem (front : List Vec3) (m : Fin 3) (j : ℕ) :
    j ∈ argsort front m ↔ j < front.length := by
  rw [(argsort_perm front m).mem_iff, List.mem_range]

theorem getD_eq_getElem_of_lt (l : List ℕ) (p : ℕ) (h : p < l.length) :
    l.getD p 0 = l[p] := by
  simp [List.getD_eq_getElem?_getD, List.getElem?_eq_getElem h]

theorem getD_inj_of_nodup (l : List ℕ) (hnd : l.Nodup) {p q : ℕ}
    (hp : p < l.length) (hq : q < l.length) (h : l.getD p 0 = l.getD q 0) : p = q := by
  rw [getD_eq_getElem_of_lt l p hp, getD_eq_getElem_of_lt l q hq] at h
  exact (List.Nodup.getElem_inj_iff hnd).1 h

theorem posOf_lt {si : List ℕ} {i : ℕ} (h : i ∈ si) : posOf si i < si.length := by
  induction si with
  | nil => cases h
  | cons x xs ih =>
    unfold posOf at *
    rw [List.findIdx_cons]
    cases hx : x == i with
    | true => simp
    | false =>
      rcases List.mem_cons.1 h with h1 | h1
      · subst h1; simp at hx
      · simpa using Nat.succ_lt_succ (ih h1)

theorem getD_posOf {si : List ℕ} {i : ℕ} (h : i ∈ si) :
    si.getD (posOf si i) 0 = i := by
  induction si with
  | nil => cases h
  | cons x xs ih =>
    unfold posOf at *
    rw [List.findIdx_cons]
    cases hx : x == i with
    | true => rw [beq_iff_eq] at hx; simpa using hx
    | false =>
      rcases List.mem_cons.1 h with h1 | h1
      · subst h1; simp at hx
      · simpa using ih h1

theorem foldl_interAdd_nmem (si : List ℕ) (keyf : ℕ → ℚ) (rng : ℚ) :
    ∀ (l : List ℕ) (d : ℕ → FloatX) (j : ℕ),
      (∀ k ∈ l, si.getD (k + 1) 0 ≠ j) →
      l.foldl (interAdd si keyf rng) d j = d j := by
  intro l
  induction l with
  | nil => intro d j _; rfl
  | cons k ks ih =>
    intro d j hcond
    rw [List.foldl_cons]
    rw [ih _ j fun k' hk' => hcond k' (List.mem_cons_of_mem _ hk')]
    unfold interAdd
    exact Function.update_noteq (fun hj => hcond k (List.mem_cons_self _ _) hj.symm) _ _

theorem addQ_zero (x : FloatX) : x.addQ 0 = x := by
  cases x with
  | inf => rfl
  | fin q => simp [FloatX.addQ]

theorem b0_ne_b1 (front : List Vec3) (m : Fin 3) (h3 : 2 < front.length) :
    (argsort front m).getD 0 0 ≠ (argsort front m).getD (front.length - 1) 0 := by
  intro h
  have h0 : 0 < (argsort front m).length := by rw [argsort_length]; omega
  have h1 : front.length - 1 < (argsort front m).length := by rw [argsort_length]; omega
  have := getD_inj_of_nodup _ (argsort_nodup front m) h0 h1 h
  omega

theorem interior_index_ne (front : List Vec3) (m : Fin 3) (_h3 : 2 < front.length)
    {q : ℕ} (hq : q < front.length) {k : ℕ} (hk : k + 1 < front.length)
    (hne : k + 1 ≠ q) : (argsort front m).getD (k + 1) 0 ≠ (argsort front m).getD q 0 := by
  intro h
  have hk2 : k + 1 < (argsort front m).length := by rw [argsort_length]; omega
  have hq2 : q < (argsort front m).length := by rw [argsort_length]; omega
  exact hne (getD_inj_of_nodup _ (argsort_nodup front m) hk2 hq2 h)

theorem dimStep_boundary (front : List Vec3) (m : Fin 3) (h3 : 2 < front.length)
    (d : ℕ → FloatX) (i : ℕ) (hb : isBoundary front m i) :
    dimStep front m d i = FloatX.inf := by
  have hne := b0_ne_b1 front m h3
  have hd2 : Function.update
      (Function.update d ((argsort front m).getD 0 0) FloatX.inf)
      ((argsort front m).getD (front.length - 1) 0) FloatX.inf i = FloatX.inf := by
    rcases hb with hb | hb
    · rw [Function.update_noteq (by rw [← hb]; exact hne), ← hb,
        Function.update_same]
    · rw [← hb, Function.update_same]
  have hnm : ∀ k ∈ List.range (front.length - 2),
      (argsort front m).getD (k + 1) 0 ≠ i := by
    intro k hk
    have hklt := List.mem_range.1 hk
    rcases hb with hb | hb
    · rw [← hb]
      exact interior_index_ne front m h3 (by omega) (by omega) (by omega)
    · rw [← hb]
      exact interior_index_ne front m h3 (by omega) (by omega) (by omega)
  simp only [dimStep, addInterior]
  by_cases hr : 0 < rangeOf front m
  · rw [if_pos hr, foldl_interAdd_nmem _ _ _ _ _ _ hnm]
    exact hd2
  · rw [if_neg hr]
    exact hd2

theorem interAdd_at_self (si : List ℕ) (keyf : ℕ → ℚ) (rng : ℚ) (d : ℕ → FloatX)
    (k : ℕ) {j : ℕ} (h : si.getD (k + 1) 0 = j) :
    interAdd si keyf rng d k j =
      (d j).addQ ((keyf (si.getD (k + 2) 0) - keyf (si.getD k 0)) / rng) := by
  unfold interAdd
  rw [h, Function.update_same]

theorem dimStep_nonboundary (front : List Vec3) (m : Fin 3) (h3 : 2 < front.length)
    (d : ℕ → FloatX) (i : ℕ) (hi : i < front.length) (hnb : ¬ isBoundary front m i) :
    dimStep front m d i = (d i).addQ (contribAt front m i) := by
  have hmem : i ∈ argsort front m := (argsort_mem front m i).2 hi
  have hplt : posOf (argsort front m) i < front.length := by
    have := posOf_lt hmem; rwa [argsort_length] at this
  have hgp : (argsort front m).getD (posOf (argsort front m) i) 0 = i := getD_posOf hmem
  have hnb0 : (argsort front m).getD 0 0 ≠ i := fun h => hnb (Or.inl h)
  have hnb1 : (argsort front m).getD (front.length - 1) 0 ≠ i := fun h => hnb (Or.inr h)
  have hp0 : posOf (argsort front m) i ≠ 0 := by
    intro h; exact hnb0 (h ▸ hgp)
  have hp1 : posOf (argsort front m) i ≠ front.length - 1 := by
    intro h; exact hnb1 (h ▸ hgp)
  set p := posOf (argsort front m) i with hp_def
  have hp_ge : 1 ≤ p := Nat.one_le_iff_ne_zero.2 hp0
  have hp_le : p ≤ front.length - 2 := by omega
  have hd2 : Function.update
      (Function.update d ((argsort front m).getD 0 0) FloatX.inf)
      ((argsort front m).getD (front.length - 1) 0) FloatX.inf i = d i := by
    rw [Function.update_noteq (fun h => hnb1 h.symm),
      Function.update_noteq (fun h => hnb0 h.symm)]
  simp only [dimStep, addInterior]
  by_cases hr : 0 < rangeOf front m
  · rw [if_pos hr]
    have hsplit : front.length - 2 = (p - 1) + (((front.length - 2) - (p - 1) - 1) + 1) := by
      omega
    rw [hsplit, List.range_add, List.range_succ_eq_map, List.map_cons,
      List.foldl_append, List.foldl_cons, List.map_map, Nat.add_zero]
    have hstep1 : ∀ dd : ℕ → FloatX,
        (List.range (p - 1)).foldl (interAdd (argsort front m) (keyOf front m)
          (rangeOf front m)) dd i = dd i := by
      intro dd
      apply foldl_interAdd_nmem
      intro k hk
      have hklt := List.mem_range.1 hk
      rw [← hgp]
      exact interior_index_ne front m h3 (by omega) (by omega) (by omega)
    have hrest : ∀ dd : ℕ → FloatX,
        ((List.range ((front.length - 2) - (p - 1) - 1)).map
            ((fun x => p - 1 + x) ∘ Nat.succ)).foldl
          (interAdd (argsort front m) (keyOf front m) (rangeOf front m)) dd i = dd i := by
      intro dd
      apply foldl_interAdd_nmem
      intro k hk
      obtain ⟨x, hx, rfl⟩ := List.mem_map.1 hk
      have hxlt := List.mem_range.1 hx
      rw [← hgp]
      show (argsort front m).getD ((p - 1 + (x + 1)) + 1) 0 ≠ (argsort front m).getD p 0
      exact interior_index_ne front m h3 (by omega) (by omega) (by omega)
    rw [hrest]
    have hidx : p - 1 + 1 = p := by omega
    rw [interAdd_at_self _ _ _ _ _ (by rw [hidx]; exact hgp)]
    rw [hstep1, hd2]
    have hidx2 : p - 1 + 2 = p + 1 := by omega
    rw [hidx2]
    unfold contribAt
    rw [if_pos hr, ← hp_def]
  · rw [if_neg hr]
    unfold contribAt
    rw [if_neg hr, addQ_zero]
    exact hd2

theorem crowding_eq_distSpec (front : List Vec3) (h3 : 2 < front.length)
    (i : ℕ) (hi : i < front.length) :
    crowdingDistances front i = distSpec front i := by
  unfold crowdingDistances distSpec
  by_cases hb2 : isBoundary front 2 i
  · rw [dimStep_boundary front 2 h3 _ i hb2, if_pos ⟨2, hb2⟩]
  · rw [dimStep_nonboundary front 2 h3 _ i hi hb2]
    by_cases hb1 : isBoundary front 1 i
    · rw [dimStep_boundary front 1 h3 _ i hb1, if_pos ⟨1, hb1⟩]
      rfl
    · rw [dimStep_nonboundary front 1 h3 _ i hi hb1]
      by_cases hb0 : isBoundary front 0 i
      · rw [dimStep_boundary front 0 h3 _ i hb0, if_pos ⟨0, hb0⟩]
        rfl
      · rw [dimStep_nonboundary front 0 h3 _ i hi hb0]
        rw [if_neg ?hc]
        case hc =>
          rintro ⟨m, hm⟩
          fin_cases m
          · exact hb0 hm
          · exact hb1 hm
          · exact hb2 hm
        rw [Fin.sum_univ_three]
        simp only [FloatX.addQ, FloatX.fin.injEq]
        ring

theorem finiteDistances_eq_spec (front : List Vec3) (h3 : 2 < front.length) :
    finiteDistances front = specFiniteDists front := by
  unfold finiteDistances specFiniteDists
  rw [List.filterMap_map]
  apply List.filterMap_congr
  intro i hi
  have := crowding_eq_distSpec front h3 i (List.mem_range.1 hi)
  simp [Function.comp, this]

theorem toFiniteQ_eq_none (x : FloatX) : toFiniteQ x = none ↔ x = FloatX.inf := by
  cases x <;> simp [toFiniteQ]

/-- C4 (claim theorem):
`calculate_sparsity` returns the `float('inf')` sentinel exactly when
the front has at most two solutions or every per-solution crowding
distance is infinite; otherwise it returns the arithmetic mean of the
finite per-solution distances.  Per solution, the computed crowding
distance is infinite exactly for solutions at the first or last sorted
position of some dimension, and otherwise equals the sum of the three
per-dimension contributions (`crowding_eq_distSpec` conjunct). -/
theorem sparsity_sentinel_and_mean (front : List Vec3) :
    (calculateSparsity front = FloatX.inf ↔
      front.length ≤ 2 ∨ ∀ i < front.length, distSpec front i = FloatX.inf) ∧
    (2 < front.length →
      (∀ i < front.length, crowdingDistances front i = distSpec front i) ∧
      (calculateSparsity front ≠ FloatX.inf →
        calculateSparsity front =
          FloatX.fin ((specFiniteDists front).sum /
            ((specFiniteDists front).length : ℚ)))) := by
  by_cases h2 : front.length ≤ 2
  · refine ⟨?_, fun h3 => absurd h3 (by omega)⟩
    unfold calculateSparsity
    rw [if_pos h2]
    simp [h2]
  · push_neg at h2
    have hchar : ∀ i < front.length, crowdingDistances front i = distSpec front i :=
      fun i hi => crowding_eq_distSpec front h2 i hi
    have hempty : finiteDistances front = [] ↔
        ∀ i < front.length, distSpec front i = FloatX.inf := by
      rw [finiteDistances_eq_spec front h2]
      unfold specFiniteDists
      rw [List.filterMap_eq_nil_iff]
      constructor
      · intro h i hi
        exact (toFiniteQ_eq_none _).1 (h i (List.mem_range.2 hi))
      · intro h i hi
        exact (toFiniteQ_eq_none _).2 (h i (List.mem_range.1 hi))
    constructor
    · unfold calculateSparsity
      rw [if_neg (by omega)]
      by_cases he : finiteDistances front = []
      · rw [if_pos he]
        simp only [true_iff]
        exact Or.inr (hempty.1 he)
      · rw [if_neg he]
        constructor
        · intro h
          exact absurd h (by simp)
        · rintro (h | h)
          · omega
          · exact absurd (hempty.2 h) he
    · intro _
      refine ⟨hchar, ?_⟩
      intro hns
      unfold calculateSparsity at hns ⊢
      rw [if_neg (by omega)] at hns ⊢
      by_cases he : finiteDistances front = []
      · rw [if_pos he] at hns
        exact absurd rfl hns
      · rw [if_neg he]
        rw [finiteDistances_eq_spec front h2]

/-- Witness for `sparsity_sentinel_and_mean` at a concrete three-point
front with pairwise distinct objective values. -/
theorem sparsity_sentinel_and_mean_witness :
    2 < ([(⟨0, 0, 0⟩ : Vec3), ⟨1, 1, 1⟩, ⟨2, 2, 2⟩] : List Vec3).length ∧
      (1 : ℕ) < ([(⟨0, 0, 0⟩ : Vec3), ⟨1, 1, 1⟩, ⟨2, 2, 2⟩] : List Vec3).length ∧
      crowdingDistances [⟨0, 0, 0⟩, ⟨1, 1, 1⟩, ⟨2, 2, 2⟩] 1 =
        distSpec [⟨0, 0, 0⟩, ⟨1, 1, 1⟩, ⟨2, 2, 2⟩] 1 ∧
      calculateSparsity [⟨0, 0, 0⟩, ⟨1, 1, 1⟩, ⟨2, 2, 2⟩] ≠ FloatX.inf ∧
      calculateSparsity [⟨0, 0, 0⟩, ⟨1, 1, 1⟩, ⟨2, 2, 2⟩] =
        FloatX.fin ((specFiniteDists [⟨0, 0, 0⟩, ⟨1, 1, 1⟩, ⟨2, 2, 2⟩]).sum /
          ((specFiniteDists [⟨0, 0, 0⟩, ⟨1, 1, 1⟩, ⟨2, 2, 2⟩]).length : ℚ)) := by
  have hd1 : distSpec [⟨0, 0, 0⟩, ⟨1, 1, 1⟩, ⟨2, 2, 2⟩] 1 ≠ FloatX.inf := by
    unfold distSpec
    rw [if_neg (by decide)]
    simp
  have hcs : calculateSparsity [⟨0, 0, 0⟩, ⟨1, 1, 1⟩, ⟨2, 2, 2⟩] ≠ FloatX.inf := by
    rw [Ne, (sparsity_sentinel_and_mean _).1]
    push_neg
    exact ⟨by decide, 1, by decide, hd1⟩
  exact ⟨by decide, by decide,
    ((sparsity_sentinel_and_mean _).2 (by decide)).1 1 (by decide),
    hcs,
    ((sparsity_sentinel_and_mean _).2 (by decide)).2 hcs⟩

/-- C8 (claim theorem):
for a front of at least three solutions and a dimension whose value
range is `0`, the additive contribution of that dimension is `0` for
every solution (the division is guarded and never performed), and the
dimension pass leaves every non-boundary entry of the distance array
unchanged — no infinity or division artefact arises from the zero
range. -/
theorem zero_range_guard (front : List Vec3) (m : Fin 3) (_h3 : 2 < front.length)
    (hr : rangeOf front m = 0) :
    (∀ i, contribAt front m i = 0) ∧
    (∀ (d : ℕ → FloatX) (i : ℕ), ¬ isBoundary front m i → dimStep front m d i = d i) := by
  have hnlt : ¬ 0 < rangeOf front m := by rw [hr]; exact lt_irrefl 0
  constructor
  · intro i
    unfold contribAt
    rw [if_neg hnlt]
  · intro d i hnb
    simp only [dimStep]
    rw [if_neg hnlt,
      Function.update_noteq (fun h => hnb (Or.inr h.symm)),
      Function.update_noteq (fun h => hnb (Or.inl h.symm))]

/-- Witness for `zero_range_guard` at a three-point front whose first
objective has zero range. -/
theorem zero_range_guard_witness :
    2 < ([(⟨1, 2, 3⟩ : Vec3), ⟨1, 5, 4⟩, ⟨1, 0, 9⟩] : List Vec3).length ∧
      rangeOf [⟨1, 2, 3⟩, ⟨1, 5, 4⟩, ⟨1, 0, 9⟩] 0 = 0 ∧
      contribAt [⟨1, 2, 3⟩, ⟨1, 5, 4⟩, ⟨1, 0, 9⟩] 0 1 = 0 ∧
      ¬ isBoundary [⟨1, 2, 3⟩, ⟨1, 5, 4⟩, ⟨1, 0, 9⟩] 0 1 ∧
      dimStep [⟨1, 2, 3⟩, ⟨1, 5, 4⟩, ⟨1, 0, 9⟩] 0 (fun _ => FloatX.fin 0) 1 =
        FloatX.fin 0 := by
  have hsort : argsort [(⟨1, 2, 3⟩ : Vec3), ⟨1, 5, 4⟩, ⟨1, 0, 9⟩] 0 = [0, 1, 2] := by
    decide
  have hr : rangeOf [(⟨1, 2, 3⟩ : Vec3), ⟨1, 5, 4⟩, ⟨1, 0, 9⟩] 0 = 0 := by
    unfold rangeOf
    rw [hsort]
    norm_num [keyOf, objAt]
  exact ⟨by decide, hr,
    (zero_range_guard _ 0 (by decide) hr).1 1,
    by decide,
    (zero_range_guard _ 0 (by decide) hr).2 (fun _ => FloatX.fin 0) 1 (by decide)⟩

/-! ## Metrics timeline builder (`calculate_metrics_over_time`) -/

/-- One record of the per-round metrics timeline (the four parallel
lists `rounds / hypervolume / sparsity / pareto_size` of the source,
viewed row-wise). -/
structure MetricsEntry where
  round : ℕ
  hypervolume : ℚ
  sparsity : ℚ
  paretoSize : ℕ
deriving DecidableEq, Repr

/-- Capping of the sparsity sentinel:
`sparsity if sparsity != float('inf') else 100`. -/
def capSparsity : FloatX → ℚ
  | .inf => 100
  | .fin q => q

/-- The shared reference point of `calculate_metrics_over_time`:
`np.max` over the accumulated `all_objectives` list plus `0.1`, or the
default `[1.1, 1.1, 1.1]` when no round contains any solution. -/
def globalRef (rounds : List (List Vec3)) : Vec3 :=
  match rounds.foldl (fun acc front => acc ++ front) [] with
  | [] => ⟨11/10, 11/10, 11/10⟩
  | v :: vs => vaddMargin (npMax (v :: vs))

/-- The per-round loop of `calculate_metrics_over_time`, threading the
global generator state through the hypervolume calls; `i` is the
0-based `enumerate` counter. -/
def timelineLoop (gen : ℕ → ℕ → Vec3) (ref : Vec3) :
    List (List Vec3) → ℕ → Rng → List MetricsEntry × Rng
  | [], _, r => ([], r)
  | front :: rest, i, r =>
    let hvr := calculateHypervolumeS gen front (some ref) r
    let tl := timelineLoop gen ref rest (i + 1) hvr.2
    (⟨i + 1, hvr.1, capSparsity (calculateSparsity front), front.length⟩ :: tl.1, tl.2)

/-- Embedding of `calculate_metrics_over_time(data)`: compute the shared reference
point, then the per-round records, in round order. -/
def calculateMetricsOverTimeS (gen : ℕ → ℕ → Vec3) (rounds : List (List Vec3))
    (r : Rng) : List MetricsEntry × Rng :=
  timelineLoop gen (globalRef rounds) rounds 0 r

/-- Claim-side shared reference point: componentwise max over the union
of every round's triples plus `0.1` per dimension, or the fixed default
`(1.1, 1.1, 1.1)` when the union is empty. -/
def specGlobalRef (rounds : List (List Vec3)) : Vec3 :=
  if rounds.flatten = [] then ⟨11/10, 11/10, 11/10⟩
  else specHigh rounds.flatten

/-- Claim-side timeline: one record per input round, in input order,
with round numbers `1, 2, ...`, every hypervolume computed against the
one shared reference point, and the sparsity sentinel capped to 100. -/
def specTimeline (gen : ℕ → ℕ → Vec3) (rounds : List (List Vec3)) :
    List MetricsEntry :=
  (List.range rounds.length).map fun j =>
    ⟨j + 1,
     calculateHypervolume gen (rounds.getD j []) (some (specGlobalRef rounds)),
     capSparsity (calculateSparsity (rounds.getD j [])),
     (rounds.getD j []).length⟩

theorem foldl_append_eq_flatten (rounds : List (List Vec3)) :
    ∀ acc : List Vec3, rounds.foldl (fun acc front => acc ++ front) acc =
      acc ++ rounds.flatten := by
  induction rounds with
  | nil => intro acc; simp
  | cons f fs ih => intro acc; simp [ih, List.append_assoc]

theorem globalRef_eq_spec (rounds : List (List Vec3)) :
    globalRef rounds = specGlobalRef rounds := by
  unfold globalRef specGlobalRef
  rw [foldl_append_eq_flatten rounds [], List.nil_append]
  cases h : rounds.flatten with
  | nil => rw [if_pos rfl]
  | cons v vs => rw [if_neg (by simp), specHigh_eq]

theorem timelineLoop_fst (gen : ℕ → ℕ → Vec3) (ref : Vec3) :
    ∀ (l : List (List Vec3)) (i : ℕ) (r : Rng),
      (timelineLoop gen ref l i r).1 = (List.range l.length).map fun j =>
        ⟨i + j + 1, calculateHypervolume gen (l.getD j []) (some ref),
         capSparsity (calculateSparsity (l.getD j [])), (l.getD j []).length⟩ := by
  intro l
  induction l with
  | nil => intro i r; rfl
  | cons f fs ih =>
    intro i r
    simp only [timelineLoop]
    rw [ih (i + 1)]
    rw [List.length_cons, List.range_succ_eq_map, List.map_cons, List.map_map]
    congr 1
    · simp [hypervolumeS_fst_eq_pure]
    · apply List.map_congr_left
      intro j _
      simp only [Function.comp_apply, List.getD_cons_succ, Nat.succ_eq_add_one]
      congr 1
      omega

/-- C3 (claim theorem):
for every run the timeline builder computes one shared reference point
(componentwise max over the union of every round's triples plus `0.1`,
or the default `(1.1, 1.1, 1.1)` when the run holds no solutions), uses
it for every round's hypervolume call, and emits exactly one record per
input round in input order with round numbers `1, ..., N`, capping an
infinite sparsity to the numeric value `100` (`specTimeline` spells all
of this out; the equation holds for every incoming generator state). -/
theorem metrics_timeline_build (gen : ℕ → ℕ → Vec3) (rounds : List (List Vec3))
    (r : Rng) :
    (calculateMetricsOverTimeS gen rounds r).1 = specTimeline gen rounds ∧
    (calculateMetricsOverTimeS gen rounds r).1.length = rounds.length ∧
    (calculateMetricsOverTimeS gen rounds r).1.map (·.round) =
      (List.range rounds.length).map (· + 1) := by
  have h1 : (calculateMetricsOverTimeS gen rounds r).1 = specTimeline gen rounds := by
    unfold calculateMetricsOverTimeS specTimeline
    rw [timelineLoop_fst, globalRef_eq_spec]
    apply List.map_congr_left
    intro j _
    congr 1
    omega
  refine ⟨h1, ?_, ?_⟩
  · rw [h1]
    unfold specTimeline
    simp
  · rw [h1]
    unfold specTimeline
    rw [List.map_map]
    apply List.map_congr_left
    intro j _
    rfl

/-- C9 (claim theorem):
the hypervolume estimator and the metrics timeline built on it return
the same value for the same explicit inputs regardless of the incoming
state of the process-global generator: the observable output is a
deterministic function of front, reference point and seeded stream. -/
theorem estimator_state_determinism :
    (∀ (gen : ℕ → ℕ → Vec3) (front : List Vec3) (rp : Option Vec3) (r₁ r₂ : Rng),
      (calculateHypervolumeS gen front rp r₁).1 =
        (calculateHypervolumeS gen front rp r₂).1) ∧
    (∀ (gen : ℕ → ℕ → Vec3) (rounds : List (List Vec3)) (r₁ r₂ : Rng),
      (calculateMetricsOverTimeS gen rounds r₁).1 =
        (calculateMetricsOverTimeS gen rounds r₂).1) := by
  refine ⟨hypervolumeS_fst_state_free, ?_⟩
  intro gen rounds r₁ r₂
  unfold calculateMetricsOverTimeS
  rw [timelineLoop_fst, timelineLoop_fst]

/-! ## Cross-run aggregation and algorithm comparison
(`analyze_optimization_results.py`) -/

/-- Fields of a round's `bestSolution` read by the cross-run
aggregator (`plot_academic_bar_comparison`). -/
structure BestSol where
  rawCost : ℚ
  rawBalance : ℚ
  disruption : ℚ
deriving DecidableEq, Repr

/-- One optimization round as read by the aggregator. -/
structure RoundRec where
  bestSolution : BestSol
deriving DecidableEq, Repr

/-- One entry of `baselineResults`.  The `disruption` and
`executionTimeMs` keys are `Option`-valued: the JSON record may
structurally lack them (the aggregator reads `executionTimeMs` through
`.get(...)`, and `plot_algorithm_comparison` indexes both directly). -/
structure BaselineRec where
  algorithm : String
  rawCost : ℚ
  rawBalance : ℚ
  disruptionOpt : Option ℚ
  weightedScore : ℚ
  movements : ℚ
  feasible : Bool
  executionTimeMsOpt : Option ℚ
deriving DecidableEq, Repr

/-- The `comparisonMetrics.nsgaiiBest` sub-record, every field probed
with `.get(key, 0)`. -/
structure NsgaBest where
  rawCostOpt : Option ℚ
  rawBalanceOpt : Option ℚ
  disruptionOpt : Option ℚ
  weightedScoreOpt : Option ℚ
  movementsOpt : Option ℚ
deriving DecidableEq, Repr

/-- The parts of `comparisonMetrics` read by
`plot_algorithm_comparison`; the nested
`performanceComparison.nsgaiiExecutionTime` chain of `.get` calls is
collapsed into one optional field. -/
structure ComparisonMetricsRec where
  nsgaiiBestOpt : Option NsgaBest
  nsgaiiExecutionTimeOpt : Option ℚ
deriving DecidableEq, Repr

/-- One result file (a run) as read by the two comparison plots.
`nodeCount` models `len(result['testCase']['nodes'])`;
`finalResultsPresent` models the guard
`'finalResults' in result and result['finalResults']`. -/
structure RunRec where
  nodeCount : ℕ
  rounds : List RoundRec
  baselineResults : List BaselineRec
  comparisonMetrics : ComparisonMetricsRec
  finalResultsPresent : Bool
deriving DecidableEq, Repr

/-- Accumulator of the best-across-all-rounds scan of
`plot_academic_bar_comparison` (the six locals `best_cost`,
`best_balance`, `best_disruption` and their `_round` companions;
the dict stored into `scenario_data` keeps the three values and the
printed report carries the round indices). -/
structure BestAcc where
  cost : FloatX
  balance : FloatX
  disruption : FloatX
  costRound : ℕ
  balanceRound : ℕ
  disruptionRound : ℕ
deriving DecidableEq, Repr

/-- Initial accumulator: `float('inf')` values, round index 0. -/
def bestInit : BestAcc := ⟨.inf, .inf, .inf, 0, 0, 0⟩

/-- One iteration of the best-value scan (`i` is the 0-based
`enumerate` counter; each objective updates on strict improvement). -/
def bestStep (acc : BestAcc) (i : ℕ) (s : BestSol) : BestAcc :=
  let acc1 := if FloatX.qlt s.rawCost acc.cost then
    { acc with cost := .fin s.rawCost, costRound := i + 1 } else acc
  let acc2 := if FloatX.qlt s.rawBalance acc1.balance then
    { acc1 with balance := .fin s.rawBalance, balanceRound := i + 1 } else acc1
  if FloatX.qlt s.disruption acc2.disruption then
    { acc2 with disruption := .fin s.disruption, disruptionRound := i + 1 } else acc2

/-- The `for i, round_data in enumerate(result['rounds'])` loop. -/
def bestLoop : List RoundRec → BestAcc → ℕ → BestAcc
  | [], acc, _ => acc
  | rd :: rest, acc, i => bestLoop rest (bestStep acc i rd.bestSolution) (i + 1)

/-- Best objective values (with provenance) across all rounds of one
run. -/
def bestAcrossRounds (rounds : List RoundRec) : BestAcc :=
  bestLoop rounds bestInit 0

/-- The dict stored at `scenario_data[nc]['baselines'][alg_name]`. -/
structure BaselineSummary where
  cost : ℚ
  balance : ℚ
  disruption : ℚ
  executionTime : ℚ
deriving DecidableEq, Repr

/-- The baseline-extraction assignment of
`plot_academic_bar_comparison`: cost and balance are copied,
`disruption` is the literal constant `0` (the source comment says
baselines do initial placement and move no pods), and the execution
time is `baseline.get('executionTimeMs', 0) / 1000.0`. -/
def extractBaseline (b : BaselineRec) : BaselineSummary :=
  ⟨b.rawCost, b.rawBalance, 0, b.executionTimeMsOpt.getD 0 / 1000⟩

/-- One value of the `scenario_data` dict. -/
structure GroupData where
  nsga : Option BestAcc
  baselines : List (String × BaselineSummary)
deriving DecidableEq, Repr

/-- Lookup in the insertion-ordered dict model. -/
def lookupG : List (ℕ × GroupData) → ℕ → Option GroupData
  | [], _ => none
  | (k, g) :: rest, k2 => if k = k2 then some g else lookupG rest k2

/-- Embedding of `scenario_data[nc]['nsga_ii'] = ...` (overwrites in place). -/
def updateNsga : List (ℕ × GroupData) → ℕ → BestAcc → List (ℕ × GroupData)
  | [], _, _ => []
  | (k, g) :: rest, k2, acc =>
    if k = k2 then (k, { g with nsga := some acc }) :: rest
    else (k, g) :: updateNsga rest k2 acc

/-- Embedding of `scenario_data[nc]['baselines'][alg_name] = ...` (upsert keyed by
algorithm name, insertion order preserved). -/
def setBaselineEntry : List (String × BaselineSummary) → String → BaselineSummary →
    List (String × BaselineSummary)
  | [], name, v => [(name, v)]
  | (n, s) :: rest, name, v =>
    if n = name then (n, v) :: rest else (n, s) :: setBaselineEntry rest name v

/-- Update the baselines dict of group `k2`. -/
def updateBaseline : List (ℕ × GroupData) → ℕ → String → BaselineSummary →
    List (ℕ × GroupData)
  | [], _, _, _ => []
  | (k, g) :: rest, k2, name, v =>
    if k = k2 then
      (k, { g with baselines := setBaselineEntry g.baselines name v }) :: rest
    else (k, g) :: updateBaseline rest k2 name v

/-- Processing of one result in the `for result in self.results` loop of
`plot_academic_bar_comparison`: create the group on first sight of the
node count, overwrite its `nsga_ii` summary when the run has rounds,
then upsert every baseline. -/
def processRun (m : List (ℕ × GroupData)) (run : RunRec) : List (ℕ × GroupData) :=
  let m1 := if (lookupG m run.nodeCount).isSome then m
    else m ++ [(run.nodeCount, ⟨none, []⟩)]
  let m2 := if run.rounds.isEmpty then m1
    else updateNsga m1 run.nodeCount (bestAcrossRounds run.rounds)
  run.baselineResults.foldl
    (fun mm b => updateBaseline mm run.nodeCount b.algorithm (extractBaseline b)) m2

/-- The grouped `scenario_data` after all results are processed. -/
def buildScenarioData (results : List RunRec) : List (ℕ × GroupData) :=
  results.foldl processRun []

/-- A baseline record whose `disruption` key is structurally absent. -/
def bMissing : BaselineRec :=
  ⟨"Best Fit Decreasing", 10, 5, none, 2, 0, true, none⟩

/-- C6 (counterexample):
a baseline record that structurally lacks its `disruption` value is
stored by the aggregator with the plain numeric `0` — the stored field
is a bare rational with no missing marker, so the claim that absence is
represented distinctly from `0` fails. -/
theorem baseline_missing_disruption_counterexample :
    bMissing.disruptionOpt = none ∧ (extractBaseline bMissing).disruption = 0 :=
  ⟨rfl, rfl⟩

/-- C6 (amended claim theorem):
the aggregator stores the numeric constant `0` as every baseline's
disruption — present or absent alike — and a structurally absent
`executionTimeMs` is coerced to `0` by the `.get` default rather than
marked. -/
theorem baseline_disruption_always_zero (b : BaselineRec) :
    (extractBaseline b).disruption = 0 ∧
    (extractBaseline b).executionTime = b.executionTimeMsOpt.getD 0 / 1000 :=
  ⟨rfl, rfl⟩

/-- Single-objective view of the best-value scan. -/
def scanMin : List ℚ → FloatX × ℕ → ℕ → FloatX × ℕ
  | [], acc, _ => acc
  | q :: rest, acc, i =>
    scanMin rest (if FloatX.qlt q acc.1 then (FloatX.fin q, i + 1) else acc) (i + 1)

theorem scanMin_cons (q : ℚ) (rest : List ℚ) (acc : FloatX × ℕ) (i : ℕ) :
    scanMin (q :: rest) acc i =
      scanMin rest (if FloatX.qlt q acc.1 then (FloatX.fin q, i + 1) else acc) (i + 1) :=
  rfl

theorem bestStep_cost (acc : BestAcc) (i : ℕ) (s : BestSol) :
    ((bestStep acc i s).cost, (bestStep acc i s).costRound) =
      (if FloatX.qlt s.rawCost acc.cost then (FloatX.fin s.rawCost, i + 1)
       else (acc.cost, acc.costRound)) := by
  simp only [bestStep]
  split_ifs <;> rfl

theorem bestStep_balance (acc : BestAcc) (i : ℕ) (s : BestSol) :
    ((bestStep acc i s).balance, (bestStep acc i s).balanceRound) =
      (if FloatX.qlt s.rawBalance acc.balance then (FloatX.fin s.rawBalance, i + 1)
       else (acc.balance, acc.balanceRound)) := by
  simp only [bestStep]
  split_ifs <;> rfl

theorem bestStep_disruption (acc : BestAcc) (i : ℕ) (s : BestSol) :
    ((bestStep acc i s).disruption, (bestStep acc i s).disruptionRound) =
      (if FloatX.qlt s.disruption acc.disruption then (FloatX.fin s.disruption, i + 1)
       else (acc.disruption, acc.disruptionRound)) := by
  simp only [bestStep]
  split_ifs <;> rfl

theorem bestLoop_cost : ∀ (l : List RoundRec) (acc : BestAcc) (i : ℕ),
    ((bestLoop l acc i).cost, (bestLoop l acc i).costRound) =
      scanMin (l.map (·.bestSolution.rawCost)) (acc.cost, acc.costRound) i := by
  intro l
  induction l with
  | nil => intro acc i; rfl
  | cons rd rest ih =>
    intro acc i
    rw [List.map_cons]
    have hstep : bestLoop (rd :: rest) acc i =
        bestLoop rest (bestStep acc i rd.bestSolution) (i + 1) := rfl
    rw [hstep, ih, scanMin_cons, bestStep_cost]

theorem bestLoop_balance : ∀ (l : List RoundRec) (acc : BestAcc) (i : ℕ),
    ((bestLoop l acc i).balance, (bestLoop l acc i).balanceRound) =
      scanMin (l.map (·.bestSolution.rawBalance)) (acc.balance, acc.balanceRound) i := by
  intro l
  induction l with
  | nil => intro acc i; rfl
  | cons rd rest ih =>
    intro acc i
    rw [List.map_cons]
    have hstep : bestLoop (rd :: rest) acc i =
        bestLoop rest (bestStep acc i rd.bestSolution) (i + 1) := rfl
    rw [hstep, ih, scanMin_cons, bestStep_balance]

theorem bestLoop_disruption : ∀ (l : List RoundRec) (acc : BestAcc) (i : ℕ),
    ((bestLoop l acc i).disruption, (bestLoop l acc i).disruptionRound) =
      scanMin (l.map (·.bestSolution.disruption)) (acc.disruption, acc.disruptionRound) i := by
  intro l
  induction l with
  | nil => intro acc i; rfl
  | cons rd rest ih =>
    intro acc i
    rw [List.map_cons]
    have hstep : bestLoop (rd :: rest) acc i =
        bestLoop rest (bestStep acc i rd.bestSolution) (i + 1) := rfl
    rw [hstep, ih, scanMin_cons, bestStep_disruption]

theorem scanMin_no_update : ∀ (l : List ℚ) (q : ℚ) (j i : ℕ),
    (∀ x ∈ l, q ≤ x) → scanMin l (FloatX.fin q, j) i = (FloatX.fin q, j) := by
  intro l
  induction l with
  | nil => intro q j i _; rfl
  | cons x xs ih =>
    intro q j i h
    unfold scanMin
    have hx : ¬ (FloatX.qlt x (FloatX.fin q) = true) := by
      simp only [FloatX.qlt, decide_eq_true_eq, not_lt]
      exact h x (List.mem_cons_self _ _)
    rw [if_neg hx]
    exact ih q j (i + 1) fun y hy => h y (List.mem_cons_of_mem _ hy)

theorem scanMin_char : ∀ (l : List ℚ) (q : ℚ) (j i : ℕ) (mval : ℚ),
    mval ∈ l → mval < q → (∀ x ∈ l, mval ≤ x) →
    ∃ k, k < l.length ∧ l.getD k 0 = mval ∧
      scanMin l (FloatX.fin q, j) i = (FloatX.fin mval, i + k + 1) := by
  intro l
  induction l with
  | nil => intro q j i mval hmem; cases hmem
  | cons x xs ih =>
    intro q j i mval hmem hlt hmin
    unfold scanMin
    by_cases hx : x < q
    · rw [if_pos (by simpa [FloatX.qlt] using hx)]
      by_cases hex : ∃ y ∈ xs, y < x
      · obtain ⟨y, hy, hyx⟩ := hex
        have hmval_xs : mval ∈ xs := by
          rcases List.mem_cons.1 hmem with h | h
          · exact absurd (h ▸ hmin y (List.mem_cons_of_mem _ hy)) (not_le.2 hyx)
          · exact h
        have hmval_lt : mval < x := lt_of_le_of_lt (hmin y (List.mem_cons_of_mem _ hy)) hyx
        obtain ⟨k, hk, hg, hs⟩ := ih x (i + 1) (i + 1) mval hmval_xs hmval_lt
          fun z hz => hmin z (List.mem_cons_of_mem _ hz)
        exact ⟨k + 1, by simpa using Nat.succ_lt_succ hk, by simpa using hg,
          by rw [hs]; congr 1; omega⟩
      · push_neg at hex
        have hxm : mval = x := le_antisymm (hmin x (List.mem_cons_self _ _))
          (by rcases List.mem_cons.1 hmem with h | h
              · exact h ▸ le_refl x
              · exact hex mval h)
        refine ⟨0, by simp, by simpa using hxm.symm, ?_⟩
        rw [scanMin_no_update xs x (i + 1) (i + 1) hex]
        rw [hxm]
    · rw [if_neg (by simpa [FloatX.qlt] using hx)]
      have hmval_xs : mval ∈ xs := by
        rcases List.mem_cons.1 hmem with h | h
        · exact absurd (h ▸ hlt) (by push_neg at hx; exact not_lt.2 hx)
        · exact h
      obtain ⟨k, hk, hg, hs⟩ := ih q j (i + 1) mval hmval_xs hlt
        fun z hz => hmin z (List.mem_cons_of_mem _ hz)
      exact ⟨k + 1, by simpa using Nat.succ_lt_succ hk, by simpa using hg,
        by rw [hs]; congr 1; omega⟩

theorem scanMin_inf_char : ∀ (l : List ℚ) (i : ℕ) (mval : ℚ),
    mval ∈ l → (∀ x ∈ l, mval ≤ x) →
    ∃ k, k < l.length ∧ l.getD k 0 = mval ∧
      scanMin l (FloatX.inf, 0) i = (FloatX.fin mval, i + k + 1) := by
  intro l i mval hmem hmin
  cases l with
  | nil => cases hmem
  | cons x xs =>
    unfold scanMin
    rw [if_pos (by simp [FloatX.qlt])]
    by_cases hex : ∃ y ∈ xs, y < x
    · obtain ⟨y, hy, hyx⟩ := hex
      have hmval_xs : mval ∈ xs := by
        rcases List.mem_cons.1 hmem with h | h
        · exact absurd (h ▸ hmin y (List.mem_cons_of_mem _ hy)) (not_le.2 hyx)
        · exact h
      have hmval_lt : mval < x := lt_of_le_of_lt (hmin y (List.mem_cons_of_mem _ hy)) hyx
      obtain ⟨k, hk, hg, hs⟩ := scanMin_char xs x (i + 1) (i + 1) mval hmval_xs hmval_lt
        fun z hz => hmin z (List.mem_cons_of_mem _ hz)
      exact ⟨k + 1, by simpa using Nat.succ_lt_succ hk, by simpa using hg,
        by rw [hs]; congr 1; omega⟩
    · push_neg at hex
      have hxm : mval = x := le_antisymm (hmin x (List.mem_cons_self _ _))
        (by rcases List.mem_cons.1 hmem with h | h
            · exact h ▸ le_refl x
            · exact hex mval h)
      refine ⟨0, by simp, by simpa using hxm.symm, ?_⟩
      rw [scanMin_no_update xs x (i + 1) (i + 1) hex, hxm]

theorem foldl_min_mem (l : List ℚ) : ∀ a : ℚ, l.foldl min a ∈ a :: l := by
  induction l with
  | nil => intro a; simp
  | cons z zs ih =>
    intro a
    rw [List.foldl_cons]
    rcases List.mem_cons.1 (ih (min a z)) with h | h
    · rw [h]
      rcases min_choice a z with hc | hc <;> rw [hc]
      · exact List.mem_cons_self _ _
      · exact List.mem_cons_of_mem _ (List.mem_cons_self _ _)
    · exact List.mem_cons_of_mem _ (List.mem_cons_of_mem _ h)

theorem listMin_mem (l : List ℚ) (hne : l ≠ []) : listMin l ∈ l := by
  cases l with
  | nil => exact absurd rfl hne
  | cons y ys => exact foldl_min_mem ys y

theorem lookupG_append_none (m : List (ℕ × GroupData)) (k : ℕ) (v : GroupData)
    (h : lookupG m k = none) : lookupG (m ++ [(k, v)]) k = some v := by
  induction m with
  | nil => simp [lookupG]
  | cons kg rest ih =>
    obtain ⟨k1, g1⟩ := kg
    rw [List.cons_append]
    unfold lookupG at h ⊢
    by_cases hk : k1 = k
    · rw [if_pos hk] at h; cases h
    · rw [if_neg hk] at h ⊢
      exact ih h

theorem updateNsga_lookup (m : List (ℕ × GroupData)) (k : ℕ) (acc : BestAcc)
    (g : GroupData) (h : lookupG m k = some g) :
    lookupG (updateNsga m k acc) k = some { g with nsga := some acc } := by
  induction m with
  | nil => cases h
  | cons kg rest ih =>
    obtain ⟨k1, g1⟩ := kg
    unfold lookupG at h
    unfold updateNsga
    by_cases hk : k1 = k
    · rw [if_pos hk] at h
      rw [if_pos hk]
      unfold lookupG
      rw [if_pos hk]
      cases h
      rfl
    · rw [if_neg hk] at h
      rw [if_neg hk]
      unfold lookupG
      rw [if_neg hk]
      exact ih h

theorem updateBaseline_lookup_nsga (m : List (ℕ × GroupData)) (k : ℕ) (name : String)
    (v : BaselineSummary) (g : GroupData) (h : lookupG m k = some g) :
    ∃ g2, lookupG (updateBaseline m k name v) k = some g2 ∧ g2.nsga = g.nsga := by
  induction m with
  | nil => cases h
  | cons kg rest ih =>
    obtain ⟨k1, g1⟩ := kg
    unfold lookupG at h
    unfold updateBaseline
    by_cases hk : k1 = k
    · rw [if_pos hk] at h
      rw [if_pos hk]
      injection h with h
      subst h
      refine ⟨{ g1 with baselines := setBaselineEntry g1.baselines name v }, ?_, rfl⟩
      unfold lookupG
      rw [if_pos hk]
    · rw [if_neg hk] at h
      rw [if_neg hk]
      obtain ⟨g2, hg2, hn⟩ := ih h
      refine ⟨g2, ?_, hn⟩
      unfold lookupG
      rw [if_neg hk]
      exact hg2

theorem foldl_updateBaseline_nsga (bs : List BaselineRec) (k : ℕ) :
    ∀ (m : List (ℕ × GroupData)) (g : GroupData), lookupG m k = some g →
      ∃ g2, lookupG (bs.foldl
          (fun mm b => updateBaseline mm k b.algorithm (extractBaseline b)) m) k =
        some g2 ∧ g2.nsga = g.nsga := by
  induction bs with
  | nil => intro m g h; exact ⟨g, h, rfl⟩
  | cons b rest ih =>
    intro m g h
    rw [List.foldl_cons]
    obtain ⟨g1, hg1, hn1⟩ := updateBaseline_lookup_nsga m k b.algorithm
      (extractBaseline b) g h
    obtain ⟨g2, hg2, hn2⟩ := ih _ g1 hg1
    exact ⟨g2, hg2, hn2.trans hn1⟩

theorem processRun_lookup_nsga (m : List (ℕ × GroupData)) (run : RunRec)
    (hne : run.rounds ≠ []) :
    ∃ g, lookupG (processRun m run) run.nodeCount = some g ∧
      g.nsga = some (bestAcrossRounds run.rounds) := by
  have hF : run.rounds.isEmpty = false := by
    cases h : run.rounds with
    | nil => exact absurd h hne
    | cons a l => rfl
  have hm1 : ∃ g0, lookupG (if (lookupG m run.nodeCount).isSome then m
      else m ++ [(run.nodeCount, ⟨none, []⟩)]) run.nodeCount = some g0 := by
    cases h : lookupG m run.nodeCount with
    | some g => simp [h]
    | none => simp [h, lookupG_append_none m run.nodeCount _ h]
  obtain ⟨g0, hg0⟩ := hm1
  unfold processRun
  simp only [hF, Bool.false_eq_true, if_false]
  obtain ⟨g2, hg2, hn⟩ := foldl_updateBaseline_nsga run.baselineResults run.nodeCount
    _ _ (updateNsga_lookup _ run.nodeCount (bestAcrossRounds run.rounds) g0 hg0)
  exact ⟨g2, hg2, by rw [hn]⟩

theorem bestAcrossRounds_cost_char (rounds : List RoundRec) (hne : rounds ≠ []) :
    ∃ mval k, (bestAcrossRounds rounds).cost = FloatX.fin mval ∧
      (bestAcrossRounds rounds).costRound = k + 1 ∧ k < rounds.length ∧
      (rounds.map (·.bestSolution.rawCost)).getD k 0 = mval ∧
      ∀ x ∈ rounds.map (·.bestSolution.rawCost), mval ≤ x := by
  have hcne : rounds.map (·.bestSolution.rawCost) ≠ [] := by
    cases rounds with
    | nil => exact absurd rfl hne
    | cons a l => simp
  have hmem := listMin_mem _ hcne
  have hmin : ∀ x ∈ rounds.map (·.bestSolution.rawCost),
      listMin (rounds.map (·.bestSolution.rawCost)) ≤ x :=
    fun x hx => listMin_le_mem _ x hx
  obtain ⟨k, hk, hg, hs⟩ := scanMin_inf_char (rounds.map (·.bestSolution.rawCost)) 0
    (listMin (rounds.map (·.bestSolution.rawCost))) hmem hmin
  have hproj := bestLoop_cost rounds bestInit 0
  dsimp only [bestInit] at hproj
  rw [hs] at hproj
  rw [Prod.ext_iff] at hproj
  obtain ⟨h1, h2⟩ := hproj
  refine ⟨_, k, h1, ?_, by simpa using hk, hg, hmin⟩
  rw [show (0 + k + 1) = k + 1 by omega] at h2
  exact h2

theorem bestAcrossRounds_balance_char (rounds : List RoundRec) (hne : rounds ≠ []) :
    ∃ mval k, (bestAcrossRounds rounds).balance = FloatX.fin mval ∧
      (bestAcrossRounds rounds).balanceRound = k + 1 ∧ k < rounds.length ∧
      (rounds.map (·.bestSolution.rawBalance)).getD k 0 = mval ∧
      ∀ x ∈ rounds.map (·.bestSolution.rawBalance), mval ≤ x := by
  have hcne : rounds.map (·.bestSolution.rawBalance) ≠ [] := by
    cases rounds with
    | nil => exact absurd rfl hne
    | cons a l => simp
  have hmem := listMin_mem _ hcne
  have hmin : ∀ x ∈ rounds.map (·.bestSolution.rawBalance),
      listMin (rounds.map (·.bestSolution.rawBalance)) ≤ x :=
    fun x hx => listMin_le_mem _ x hx
  obtain ⟨k, hk, hg, hs⟩ := scanMin_inf_char (rounds.map (·.bestSolution.rawBalance)) 0
    (listMin (rounds.map (·.bestSolution.rawBalance))) hmem hmin
  have hproj := bestLoop_balance rounds bestInit 0
  dsimp only [bestInit] at hproj
  rw [hs] at hproj
  rw [Prod.ext_iff] at hproj
  obtain ⟨h1, h2⟩ := hproj
  refine ⟨_, k, h1, ?_, by simpa using hk, hg, hmin⟩
  rw [show (0 + k + 1) = k + 1 by omega] at h2
  exact h2

theorem bestAcrossRounds_disruption_char (rounds : List RoundRec) (hne : rounds ≠ []) :
    ∃ mval k, (bestAcrossRounds rounds).disruption = FloatX.fin mval ∧
      (bestAcrossRounds rounds).disruptionRound = k + 1 ∧ k < rounds.length ∧
      (rounds.map (·.bestSolution.disruption)).getD k 0 = mval ∧
      ∀ x ∈ rounds.map (·.bestSolution.disruption), mval ≤ x := by
  have hcne : rounds.map (·.bestSolution.disruption) ≠ [] := by
    cases rounds with
    | nil => exact absurd rfl hne
    | cons a l => simp
  have hmem := listMin_mem _ hcne
  have hmin : ∀ x ∈ rounds.map (·.bestSolution.disruption),
      listMin (rounds.map (·.bestSolution.disruption)) ≤ x :=
    fun x hx => listMin_le_mem _ x hx
  obtain ⟨k, hk, hg, hs⟩ := scanMin_inf_char (rounds.map (·.bestSolution.disruption)) 0
    (listMin (rounds.map (·.bestSolution.disruption))) hmem hmin
  have hproj := bestLoop_disruption rounds bestInit 0
  dsimp only [bestInit] at hproj
  rw [hs] at hproj
  rw [Prod.ext_iff] at hproj
  obtain ⟨h1, h2⟩ := hproj
  refine ⟨_, k, h1, ?_, by simpa using hk, hg, hmin⟩
  rw [show (0 + k + 1) = k + 1 by omega] at h2
  exact h2

/-- First run of the C2 counterexample group: node count 3, one round
with raw cost 5. -/
def runA : RunRec := ⟨3, [⟨⟨5, 5, 5⟩⟩], [], ⟨none, none⟩, true⟩

/-- Second run of the C2 counterexample group: node count 3, one round
with raw cost 10. -/
def runB : RunRec := ⟨3, [⟨⟨10, 10, 10⟩⟩], [], ⟨none, none⟩, true⟩

/-- C2 (counterexample):
two runs share the same group key (node count 3); the group's reported
best cost is `10` — the best of the *last* run only, because each run
overwrites the group's `nsga_ii` entry — while the minimum over every
round of every run in the group is `5`.  The claim that the reported
value is the group-wide minimum is therefore false. -/
theorem crossrun_best_counterexample :
    (lookupG (buildScenarioData [runA, runB]) 3).map (fun g => g.nsga.map (·.cost)) =
      some (some (some (FloatX.fin 10))) ∧
    listMin ((runA.rounds ++ runB.rounds).map (·.bestSolution.rawCost)) = 5 ∧
    FloatX.fin (10 : ℚ) ≠ FloatX.fin 5 := by
  refine ⟨by decide, ?_, by decide⟩
  norm_num [runA, runB, listMin, min_def]

/-- C2 (amended claim theorem):
the group summary stored for a key is the best-across-all-rounds scan of
the **last** run with that key that has at least one round (later runs
with the same key overwrite earlier ones); within that run, each
objective's reported value is the minimum over every round, reported
together with the 1-based index of a round attaining it. -/
theorem crossrun_best_values (runs : List RunRec) (run : RunRec)
    (hne : run.rounds ≠ []) :
    (∃ g, lookupG (buildScenarioData (runs ++ [run])) run.nodeCount = some g ∧
        g.nsga = some (bestAcrossRounds run.rounds)) ∧
    (∃ mval k, (bestAcrossRounds run.rounds).cost = FloatX.fin mval ∧
        (bestAcrossRounds run.rounds).costRound = k + 1 ∧ k < run.rounds.length ∧
        (run.rounds.map (·.bestSolution.rawCost)).getD k 0 = mval ∧
        ∀ x ∈ run.rounds.map (·.bestSolution.rawCost), mval ≤ x) ∧
    (∃ mval k, (bestAcrossRounds run.rounds).balance = FloatX.fin mval ∧
        (bestAcrossRounds run.rounds).balanceRound = k + 1 ∧ k < run.rounds.length ∧
        (run.rounds.map (·.bestSolution.rawBalance)).getD k 0 = mval ∧
        ∀ x ∈ run.rounds.map (·.bestSolution.rawBalance), mval ≤ x) ∧
    (∃ mval k, (bestAcrossRounds run.rounds).disruption = FloatX.fin mval ∧
        (bestAcrossRounds run.rounds).disruptionRound = k + 1 ∧ k < run.rounds.length ∧
        (run.rounds.map (·.bestSolution.disruption)).getD k 0 = mval ∧
        ∀ x ∈ run.rounds.map (·.bestSolution.disruption), mval ≤ x) := by
  refine ⟨?_, bestAcrossRounds_cost_char run.rounds hne,
    bestAcrossRounds_balance_char run.rounds hne,
    bestAcrossRounds_disruption_char run.rounds hne⟩
  have hb : buildScenarioData (runs ++ [run]) =
      processRun (buildScenarioData runs) run := by
    unfold buildScenarioData
    rw [List.foldl_append]
    rfl
  rw [hb]
  exact processRun_lookup_nsga _ run hne

/-- Run realising the round-by-round cost sequence `[12, 8, 9]` of the
specification scenario. -/
def runC : RunRec :=
  ⟨5, [⟨⟨12, 12, 12⟩⟩, ⟨⟨8, 8, 8⟩⟩, ⟨⟨9, 9, 9⟩⟩], [], ⟨none, none⟩, true⟩

/-- Witness for `crossrun_best_values` at the specification scenario
run: best cost 8, found in round 2 (not the final value 9). -/
theorem crossrun_best_values_witness :
    runC.rounds ≠ [] ∧
    (∃ g, lookupG (buildScenarioData ([] ++ [runC])) runC.nodeCount = some g ∧
        g.nsga = some (bestAcrossRounds runC.rounds)) ∧
    (bestAcrossRounds runC.rounds).cost = FloatX.fin 8 ∧
    (bestAcrossRounds runC.rounds).costRound = 2 :=
  ⟨by decide, (crossrun_best_values [] runC (by decide)).1, by decide, by decide⟩

/-- One record of the `algorithm_data` list built by
`plot_algorithm_comparison`. -/
structure ComparisonRecord where
  algorithm : String
  cost : ℚ
  balance : ℚ
  disruption : ℚ
  weightedScore : ℚ
  movements : ℚ
  feasible : Bool
  executionTime : ℚ
deriving DecidableEq, Repr

/-- The proposed algorithm record: every field is probed with
`.get(key, 0)` on `comparisonMetrics['nsgaiiBest']`, `feasible` is the
literal `True`. -/
def mkNsgaRecord (run : RunRec) : ComparisonRecord :=
  let nb := run.comparisonMetrics.nsgaiiBestOpt.getD ⟨none, none, none, none, none⟩
  ⟨"NSGA-II", nb.rawCostOpt.getD 0, nb.rawBalanceOpt.getD 0, nb.disruptionOpt.getD 0,
   nb.weightedScoreOpt.getD 0, nb.movementsOpt.getD 0, true,
   run.comparisonMetrics.nsgaiiExecutionTimeOpt.getD 0⟩

/-- One baseline record: `disruption` and `executionTimeMs` are indexed
directly (`baseline['disruption']`), so a structurally absent key is a
failure (`none`), never a default. -/
def mkBaselineRecord (b : BaselineRec) : Option ComparisonRecord :=
  match b.disruptionOpt, b.executionTimeMsOpt with
  | some d, some t =>
    some ⟨b.algorithm, b.rawCost, b.rawBalance, d, b.weightedScore, b.movements,
      b.feasible, t⟩
  | _, _ => none

/-- The value `mkBaselineRecord` produces when both optional keys are
present. -/
def mkBaselineRecordTotal (b : BaselineRec) : ComparisonRecord :=
  ⟨b.algorithm, b.rawCost, b.rawBalance, b.disruptionOpt.getD 0, b.weightedScore,
   b.movements, b.feasible, b.executionTimeMsOpt.getD 0⟩

/-- The per-run slice of the `algorithm_data` collection loop of
`plot_algorithm_comparison`: the NSGA-II record (when `finalResults` is
present and non-empty) followed by the baseline records in source
order. -/
def comparisonRecords (run : RunRec) : Option (List ComparisonRecord) :=
  (run.baselineResults.mapM mkBaselineRecord).map fun bs =>
    (if run.finalResultsPresent then [mkNsgaRecord run] else []) ++ bs

theorem mapM_baseline_eq (bs : List BaselineRec)
    (h : ∀ b ∈ bs, b.disruptionOpt.isSome ∧ b.executionTimeMsOpt.isSome) :
    bs.mapM mkBaselineRecord = some (bs.map mkBaselineRecordTotal) := by
  induction bs with
  | nil => rfl
  | cons b rest ih =>
    obtain ⟨hd, ht⟩ := h b (List.mem_cons_self _ _)
    obtain ⟨d, hd⟩ := Option.isSome_iff_exists.1 hd
    obtain ⟨t, ht⟩ := Option.isSome_iff_exists.1 ht
    rw [List.mapM_cons, ih fun x hx => h x (List.mem_cons_of_mem _ hx)]
    simp [mkBaselineRecord, mkBaselineRecordTotal, hd, ht]

/-- C7 (claim theorem):
for a run whose `finalResults` guard holds and whose baseline records
carry their `disruption` and `executionTimeMs` keys, the comparison
reducer emits exactly `1 + len(baselineResults)` records: the proposed
algorithm record at index 0, then the baselines in source order. -/
theorem algorithm_comparison_records (run : RunRec)
    (hfin : run.finalResultsPresent = true)
    (hwf : ∀ b ∈ run.baselineResults,
      b.disruptionOpt.isSome ∧ b.executionTimeMsOpt.isSome) :
    comparisonRecords run =
      some (mkNsgaRecord run :: run.baselineResults.map mkBaselineRecordTotal) ∧
    (mkNsgaRecord run :: run.baselineResults.map mkBaselineRecordTotal).length =
      1 + run.baselineResults.length := by
  constructor
  · unfold comparisonRecords
    rw [mapM_baseline_eq run.baselineResults hwf, hfin]
    rfl
  · simp [Nat.add_comm]

/-- A run with three well-formed baselines. -/
def run3 : RunRec :=
  ⟨4, [], [⟨"Best Fit Decreasing", 10, 5, some 0, 2, 0, true, some 30⟩,
           ⟨"First Fit Decreasing", 11, 6, some 0, 3, 0, true, some 20⟩,
           ⟨"Random Placement", 15, 9, some 0, 7, 0, true, some 5⟩],
   ⟨some ⟨some 9, some 4, some 1, some 2, some 6⟩, some 1200⟩, true⟩

/-- Witness for `algorithm_comparison_records`: a run with 3 baselines
yields exactly 4 records with the proposed algorithm first. -/
theorem algorithm_comparison_records_witness :
    run3.finalResultsPresent = true ∧
    (∀ b ∈ run3.baselineResults,
      b.disruptionOpt.isSome ∧ b.executionTimeMsOpt.isSome) ∧
    comparisonRecords run3 =
      some (mkNsgaRecord run3 :: run3.baselineResults.map mkBaselineRecordTotal) ∧
    (mkNsgaRecord run3 :: run3.baselineResults.map mkBaselineRecordTotal).length = 4 :=
  ⟨rfl, by decide, (algorithm_comparison_records run3 rfl (by decide)).1, by rfl⟩
